import Mathlib

/-!
Shallow embedding of the AudioGridder server processing core
(`src/Server/Source/ProcessorChain.cpp`, `src/Server/Source/AudioWorker.cpp`)
and proofs about its operations.  Samples are modelled as rationals, JUCE
`String`s as `List Char` where character-level parsing matters, machine `int`s
as `Int`.
-/

namespace AudioGridder

/-- Abstract state of a loaded JUCE `AudioPluginInstance`, as observed through
the calls the server core makes on it. -/
structure Plugin where
  latencySamples : Int
  supportsDoublePrecisionProcessing : Bool
  totalNumOutputChannels : Nat
  tailLengthSeconds : ℚ
deriving DecidableEq, Repr

/-- State of an `AGProcessor` (plugin instance wrapper, `ProcessorChain.cpp`). -/
structure AGProcessor where
  agId : String
  plugin : Option Plugin
  suspended : Bool
  lastKnownLatency : Nat
  extraInChannels : Int
  extraOutChannels : Int
  needsDisabledSidechain : Bool
  chainIndex : Int
  bypassBufferF : List (List ℚ)
  bypassBufferD : List (List ℚ)
deriving DecidableEq, Repr

instance : Inhabited AGProcessor :=
  ⟨⟨"", none, false, 0, 0, 0, false, 0, [], []⟩⟩

/-- Modelled from the spec: `AGProcessor::getTailLengthSeconds` is declared in
the wrapper's header, which is not among the provided sources.  Per the spec a
wrapper's tail is the tail its plugin reports, `0` without a plugin. -/
def AGProcessor.getTailLengthSeconds (w : AGProcessor) : ℚ :=
  match w.plugin with
  | some p => p.tailLengthSeconds
  | none => 0

/-- `AGProcessor::setChainIndex` (a plain field assignment). -/
def setChainIndex (w : AGProcessor) (idx : Int) : AGProcessor :=
  { w with chainIndex := idx }

/-- JUCE `AudioChannelSet`: only the variants used by `updateChannels`. -/
inductive AudioChannelSet where
  | mono
  | stereo
  | discreteChannels (n : Int)
deriving DecidableEq, Repr

/-- JUCE `AudioProcessor::BusesLayout`. -/
structure BusesLayout where
  inputBuses : List AudioChannelSet
  outputBuses : List AudioChannelSet
deriving DecidableEq, Repr

/-- State of `ProcessorChain` (aggregate fields plus the owned wrapper list). -/
structure ProcessorChain where
  processors : List AGProcessor
  busesLayout : BusesLayout
  hasSidechain : Bool
  sidechainDisabled : Bool
  extraChannels : Int
  supportsDoublePrecission : Bool
  tailSecs : ℚ
  latencySamples : Int
deriving DecidableEq, Repr

/-- Accumulator of the aggregate loop in `ProcessorChain::updateNoLock`. -/
structure AggAcc where
  latency : Int
  supportsDouble : Bool
  extraChannels : Int
  sidechainDisabled : Bool
deriving DecidableEq, Repr

/-- Loop body of `ProcessorChain::updateNoLock` (lines 556-566): wrappers whose
plugin handle is null are skipped. -/
def updateStep (hasSidechain : Bool) (acc : AggAcc) (proc : AGProcessor) : AggAcc :=
  match proc.plugin with
  | none => acc
  | some p =>
      { latency := acc.latency + p.latencySamples
        supportsDouble := acc.supportsDouble && p.supportsDoublePrecisionProcessing
        extraChannels := max (max acc.extraChannels proc.extraInChannels) proc.extraOutChannels
        sidechainDisabled := hasSidechain && (acc.sidechainDisabled || proc.needsDisabledSidechain) }

/-- Reverse-iterator loop of `updateNoLock` (lines 572-580): skip suspended
wrappers from the back, take the tail of the first remaining one. -/
def findTailRev : List AGProcessor → ℚ
  | [] => 0
  | w :: rest => if w.suspended then findTailRev rest else w.getTailLengthSeconds

/-- `ProcessorChain::updateNoLock` (lines 550-581). -/
def updateNoLock (ch : ProcessorChain) : ProcessorChain :=
  let acc := ch.processors.foldl (updateStep ch.hasSidechain) ⟨0, true, 0, false⟩
  { ch with
    latencySamples := acc.latency
    supportsDoublePrecission := acc.supportsDouble
    extraChannels := acc.extraChannels
    sidechainDisabled := acc.sidechainDisabled
    tailSecs := findTailRev ch.processors.reverse }

/-- `ProcessorChain::addProcessor` (lines 523-529). -/
def addProcessor (ch : ProcessorChain) (processor : AGProcessor) : ProcessorChain :=
  updateNoLock
    { ch with processors := ch.processors ++ [setChainIndex processor ch.processors.length] }

/-- `ProcessorChain::delProcessor` (lines 531-542): the loop erases the element
whose running index equals `idx`; a negative or too large `idx` never matches. -/
def delProcessor (ch : ProcessorChain) (idx : Int) : ProcessorChain :=
  updateNoLock
    { ch with processors :=
        if 0 ≤ idx then ch.processors.eraseIdx idx.toNat else ch.processors }

/-- `ProcessorChain::exchangeProcessors` (lines 592-600): guarded swap, then
`setChainIndex` on the two positions (no aggregate update in the source). -/
def exchangeProcessors (ch : ProcessorChain) (idxA idxB : Int) : ProcessorChain :=
  if 0 ≤ idxA ∧ idxA.toNat < ch.processors.length ∧
      0 ≤ idxB ∧ idxB.toNat < ch.processors.length then
    let a := idxA.toNat
    let b := idxB.toNat
    let pa := ch.processors.getD a default
    let pb := ch.processors.getD b default
    let ps1 := (ch.processors.set a pb).set b pa
    let ps2 := ps1.set a (setChainIndex (ps1.getD a default) idxA)
    let ps3 := ps2.set b (setChainIndex (ps2.getD b default) idxB)
    { ch with processors := ps3 }
  else ch

/-- Environment of one `AGProcessor::load` call: what `loadPlugin` would return
and whether `ProcessorChain::initPluginInstance` would succeed.  Bus-negotiation
side effects of a successful first load are outside this claim's scope. -/
structure LoadEnv where
  loadResult : Option Plugin
  initOk : Bool

/-- `AGProcessor::load` (lines 126-160) acting on the wrapper state and the
global `loadedCount`; the returned `Bool` is the C++ return value `loaded`. -/
def AGProcessor.load (env : LoadEnv) (w : AGProcessor) (loadedCount : Nat) :
    AGProcessor × Nat × Bool :=
  match w.plugin with
  | some _ => (w, loadedCount, false)
  | none =>
      match env.loadResult with
      | none => (w, loadedCount, false)
      | some p =>
          if env.initOk then ({ w with plugin := some p }, loadedCount + 1, true)
          else (w, loadedCount, false)

/-- Layout construction of `ProcessorChain::updateChannels` (lines 355-376),
the layout then installed on the chain via `setBusesLayout`.  Note the
`channelsSC > 0` fallback branch passes `channelsIn` to `discreteChannels`. -/
def updateChannelsLayout (channelsIn channelsOut channelsSC : Int) : BusesLayout :=
  let inBuses :=
    if channelsIn = 1 then [AudioChannelSet.mono]
    else if channelsIn = 2 then [AudioChannelSet.stereo]
    else if channelsIn > 0 then [AudioChannelSet.discreteChannels channelsIn]
    else []
  let inBuses :=
    if channelsSC = 1 then inBuses ++ [AudioChannelSet.mono]
    else if channelsSC = 2 then inBuses ++ [AudioChannelSet.stereo]
    else if channelsSC > 0 then inBuses ++ [AudioChannelSet.discreteChannels channelsIn]
    else inBuses
  let outBuses :=
    if channelsOut = 1 then [AudioChannelSet.mono]
    else if channelsOut = 2 then [AudioChannelSet.stereo]
    else if channelsOut > 0 then [AudioChannelSet.discreteChannels channelsOut]
    else []
  { inputBuses := inBuses, outputBuses := outBuses }

/-- JUCE `String::indexOfChar(0, c)`: index of the first occurrence, `none`
when the character does not occur (the C++ returns `-1`). -/
def firstIdx (c : Char) : List Char → Option Nat
  | [] => none
  | x :: rest => if x = c then some 0 else (firstIdx c rest).map (· + 1)

/-- JUCE `String::lastIndexOfChar(c)`: index of the last occurrence, `none`
when the character does not occur (the C++ returns `-1`). -/
def lastIdx (c : Char) : List Char → Option Nat
  | [] => none
  | x :: rest =>
      match lastIdx c rest with
      | some p => some (p + 1)
      | none => if x = c then some 0 else none

/-- JUCE `String::toLowerCase` restricted to the ASCII range the ids use. -/
def toLowerC (c : Char) : Char :=
  if 'A' ≤ c ∧ c ≤ 'Z' then Char.ofNat (c.toNat + 32) else c

/-- Character acceptance of the fileHash loop in `convertJUCEtoAGPluginID`
(lines 57-62), written as the negation of the C++ rejection test. -/
def hexOk (c : Char) : Bool :=
  !(c < '0' || ('9' < c && c < 'a') || 'f' < c)

/-- `AGProcessor::convertJUCEtoAGPluginID` (lines 30-70): parse
`<format>-<name>-<fileHash>-<pluginId>`, validate the format tag and the
lowercased fileHash, and return `<format>-<name>-<pluginId>`. -/
def convertJUCEtoAGPluginID (id : List Char) : List Char :=
  match firstIdx '-' id with
  | none => []
  | some pos =>
      let format := id.take pos
      if format ≠ "AudioUnit".toList ∧ format ≠ "VST".toList ∧ format ≠ "VST3".toList then
        []
      else
        let name := id.drop (pos + 1)
        match lastIdx '-' name with
        | none => []
        | some pos2 =>
            let pluginId := name.drop (pos2 + 1)
            let name2 := name.take pos2
            match lastIdx '-' name2 with
            | none => []
            | some pos3 =>
                let fileHash := (name2.drop (pos3 + 1)).map toLowerC
                let name3 := name2.take pos3
                if fileHash.all hexOk then
                  format ++ '-' :: (name3 ++ '-' :: pluginId)
                else []

/-- Decomposition of an id into the legacy pattern
`<format>-<name>-<fileHash>-<pluginId>`: `format` is one of the three accepted
tags, the fileHash and pluginId segments contain no dash (the name may), and
every fileHash character is accepted by the hex check after lowercasing. -/
def LegacyParts (s format name fileHash pluginId : List Char) : Prop :=
  s = format ++ '-' :: (name ++ '-' :: (fileHash ++ '-' :: pluginId)) ∧
    (format = "AudioUnit".toList ∨ format = "VST".toList ∨ format = "VST3".toList) ∧
    '-' ∉ fileHash ∧ '-' ∉ pluginId ∧
    ∀ c ∈ fileHash, hexOk (toLowerC c) = true

/-- One pass of the per-channel sample loop of `AGProcessor::processBlockBypassed`
(lines 214-221): push the sample at the FIFO tail, emit the FIFO head, pop it. -/
def bypassChannel : List ℚ → List ℚ → List ℚ × List ℚ
  | fifo, [] => (fifo, [])
  | fifo, x :: xs =>
      let f1 := fifo ++ [x]
      let rest := bypassChannel f1.tail xs
      (rest.1, f1.headD 0 :: rest.2)

/-- Clearing of a contiguous channel range `[lo, hi)` of a buffer
(`buffer.clear(i, 0, buffer.getNumSamples())` in a loop). -/
def clearChans (lo hi : Nat) (buffer : List (List ℚ)) : List (List ℚ) :=
  (List.range buffer.length).map fun i =>
    if lo ≤ i ∧ i < hi then List.replicate (buffer.getD i []).length 0
    else buffer.getD i []

/-- `AGProcessor::processBlockBypassed` (float overload, lines 188-222) on a
buffer given as a list of channels; returns the new per-channel FIFOs and the
new buffer.  Channel counts are clamped to the buffer's channel count, the
range `[totalIn, totalOut)` is cleared, and if the FIFO collection is too small
the output channels are cleared instead (fail-safe path). -/
def processBlockBypassed (totalIn totalOut : Nat) (fifos : List (List ℚ))
    (buffer : List (List ℚ)) : List (List ℚ) × List (List ℚ) :=
  let tIn := min totalIn buffer.length
  let tOut := min totalOut buffer.length
  let buf1 := clearChans tIn tOut buffer
  if fifos.length < tOut then
    (fifos, clearChans 0 tOut buf1)
  else
    ((List.range fifos.length).map fun c =>
        if c < tOut then (bypassChannel (fifos.getD c []) (buf1.getD c [])).1
        else fifos.getD c [],
     (List.range buf1.length).map fun c =>
        if c < tOut then (bypassChannel (fifos.getD c []) (buf1.getD c [])).2
        else buf1.getD c [])

/-- Channel-creation loop of `AGProcessor::updateLatencyBuffers` (lines 278-291):
while the collection has fewer FIFOs than the plugin's output channel count,
append a FIFO of `lastKnownLatency` zeros. -/
def addMissing (channels latency : Nat) (fifos : List (List ℚ)) : List (List ℚ) :=
  if fifos.length < channels then
    addMissing channels latency (fifos ++ [List.replicate latency 0])
  else fifos
termination_by channels - fifos.length
decreasing_by simp_all; omega

/-- Shrink loop of `updateLatencyBuffers` (lines 294-296, 301-303): while the
FIFO is longer than `lastKnownLatency`, remove its head. -/
def shrinkFifo (latency : Nat) (f : List ℚ) : List ℚ :=
  if latency < f.length then shrinkFifo latency f.tail else f
termination_by f.length
decreasing_by simp_all; omega

/-- Grow loop of `updateLatencyBuffers` (lines 297-299, 304-306): while the
FIFO is shorter than `lastKnownLatency`, append a zero. -/
def growFifo (latency : Nat) (f : List ℚ) : List ℚ :=
  if f.length < latency then growFifo latency (f ++ [0]) else f
termination_by latency - f.length
decreasing_by simp_all; omega

/-- `AGProcessor::updateLatencyBuffers` (lines 273-308) acting on the two
per-precision FIFO collections, with `channels` the loaded plugin's
`getTotalNumOutputChannels()` and `latency` the wrapper's `lastKnownLatency`. -/
def updateLatencyBuffers (channels latency : Nat) (fifosF fifosD : List (List ℚ)) :
    List (List ℚ) × List (List ℚ) :=
  let fF := addMissing channels latency fifosF
  let fD := addMissing channels latency fifosD
  ((List.range fF.length).map fun c =>
      if c < channels then growFifo latency (shrinkFifo latency (fF.getD c []))
      else fF.getD c [],
   (List.range fD.length).map fun c =>
      if c < channels then growFifo latency (shrinkFifo latency (fD.getD c []))
      else fD.getD c [])

/-- Resizing behaviour the spec ascribes to `updateLatencyBuffers`: truncate
from the head when the FIFO is too long, zero-pad at the tail when too short. -/
def resizeSpec (latency : Nat) (f : List ℚ) : List ℚ :=
  f.drop (f.length - latency) ++ List.replicate (latency - f.length) 0

/-- Plugin description as stored in the recents registry; `render` stands for
what `AGProcessor::createString` produces for it.  Modelled from the spec:
`createString` lives in the wrapper's header, and the recents list format is
"newline-separated rendered plugin descriptions". -/
structure PlugDesc where
  uid : Nat
  render : List Char
deriving DecidableEq, Repr

/-- The static per-host recents registry `AudioWorker::m_recents`; `none` means
the host key is absent from the map. -/
def Recents := String → Option (List PlugDesc)

/-- `AudioWorker::getRecentsList` (AudioWorker.cpp lines 183-195). -/
def getRecentsList (recents : Recents) (host : String) : List Char :=
  match recents host with
  | none => []
  | some l => l.foldl (fun acc r => acc ++ r.render ++ ['\n']) []

/-- `AudioWorker::addToRecentsList` (AudioWorker.cpp lines 197-210) given the
result of the catalog lookup `findPluginDescritpion(id)` and the configured
maximum `Defaults::DEFAULT_NUM_RECENTS` as `numRecents`. -/
def addToRecentsList (resolved : Option PlugDesc) (numRecents : Nat)
    (recents : Recents) (host : String) : Recents :=
  match resolved with
  | none => recents
  | some plug =>
      let l := (recents host).getD []
      let l1 := l.filter (fun r => r ≠ plug)
      let l2 := plug :: l1
      let toRemove : Int := l2.length - numRecents
      let l3 := if 0 < toRemove then l2.take (l2.length - toRemove.toNat) else l2
      fun h => if h = host then some l3 else recents h

/-- Invariant of claim C3/C8: every wrapper's `chainIndex` equals its position
in the chain's ordered processor list. -/
def IdxMatch (ps : List AGProcessor) : Prop :=
  ∀ k, k < ps.length → (ps.getD k default).chainIndex = k

instance (ps : List AGProcessor) : Decidable (IdxMatch ps) :=
  inferInstanceAs (Decidable (∀ k, k < ps.length → (ps.getD k default).chainIndex = k))

/-- Concrete plugin used by witnesses and counterexamples. -/
def plugSimple : Plugin := ⟨64, true, 2, 0⟩

/-- Wrapper whose plugin handle is already set (claim C1). -/
def wLoaded : AGProcessor := { (default : AGProcessor) with plugin := some plugSimple }

/-- Load environment where a fresh load would succeed (claim C1). -/
def envC1 : LoadEnv := ⟨some plugSimple, true⟩

/-- Empty buses layout for the concrete chains below. -/
def layout0 : BusesLayout := ⟨[], []⟩

/-- Two-wrapper chain whose chain indices match their positions (claim C3). -/
def chC3 : ProcessorChain :=
  { processors := [{ (default : AGProcessor) with agId := "a", chainIndex := 0 },
                   { (default : AGProcessor) with agId := "b", chainIndex := 1 }]
    busesLayout := layout0, hasSidechain := false, sidechainDisabled := false
    extraChannels := 0, supportsDoublePrecission := true, tailSecs := 0, latencySamples := 0 }

/-- Two-wrapper chain whose first wrapper's chain index does not match its
position (claim C8). -/
def chC8 : ProcessorChain :=
  { processors := [{ (default : AGProcessor) with agId := "x", chainIndex := 5 },
                   { (default : AGProcessor) with agId := "y", chainIndex := 1 }]
    busesLayout := layout0, hasSidechain := false, sidechainDisabled := false
    extraChannels := 0, supportsDoublePrecission := true, tailSecs := 0, latencySamples := 0 }

/-- Two-wrapper chain with matching chain indices for the exchange witness
(claim C8). -/
def chC8w : ProcessorChain :=
  { processors := [{ (default : AGProcessor) with agId := "u", chainIndex := 0 },
                   { (default : AGProcessor) with agId := "v", chainIndex := 1 }]
    busesLayout := layout0, hasSidechain := false, sidechainDisabled := false
    extraChannels := 0, supportsDoublePrecission := true, tailSecs := 0, latencySamples := 0 }

/-- Concrete plugin descriptions for the recents witnesses (claim C9). -/
def descP1 : PlugDesc := ⟨1, "P1".toList⟩

/-- Second concrete plugin description (claim C9). -/
def descP2 : PlugDesc := ⟨2, "P2".toList⟩

/-- Concrete recents registry with a single known host (claim C9). -/
def recents0 : Recents := fun h => if h = "hostA" then some [descP2] else none

section Theorems

/-! Helper lemmas about the aggregate fold of `updateNoLock`. -/

theorem foldl_updateStep_latency (hs : Bool) (ps : List AGProcessor) :
    ∀ acc : AggAcc, (ps.foldl (updateStep hs) acc).latency =
      acc.latency + (ps.map fun w =>
        match w.plugin with
        | some p => p.latencySamples
        | none => 0).sum := by
  induction ps with
  | nil => intro acc; simp
  | cons w ps ih =>
      intro acc
      cases hw : w.plugin with
      | none => simp [List.foldl_cons, updateStep, hw, ih]
      | some p => simp [List.foldl_cons, updateStep, hw, ih]; ring

theorem foldl_updateStep_double (hs : Bool) (ps : List AGProcessor) :
    ∀ acc : AggAcc, (ps.foldl (updateStep hs) acc).supportsDouble =
      (acc.supportsDouble && ps.all fun w =>
        match w.plugin with
        | some p => p.supportsDoublePrecisionProcessing
        | none => true) := by
  induction ps with
  | nil => intro acc; simp
  | cons w ps ih =>
      intro acc
      cases hw : w.plugin with
      | none => simp [List.foldl_cons, updateStep, hw, ih]
      | some p => simp [List.foldl_cons, updateStep, hw, ih, Bool.and_assoc]

theorem foldl_updateStep_extra (hs : Bool) (ps : List AGProcessor) :
    ∀ acc : AggAcc, (ps.foldl (updateStep hs) acc).extraChannels =
      (ps.filterMap fun w =>
        w.plugin.map fun _ => max w.extraInChannels w.extraOutChannels).foldl
        max acc.extraChannels := by
  induction ps with
  | nil => intro acc; simp
  | cons w ps ih =>
      intro acc
      cases hw : w.plugin with
      | none => simp [List.foldl_cons, updateStep, hw, ih]
      | some p =>
          simp [List.foldl_cons, updateStep, hw, ih, max_assoc]

theorem foldl_updateStep_sidechain (hs : Bool) (ps : List AGProcessor) :
    ∀ (acc : AggAcc) (y : Bool), acc.sidechainDisabled = (hs && y) →
      (ps.foldl (updateStep hs) acc).sidechainDisabled =
        (hs && (y || ps.any fun w => w.plugin.isSome && w.needsDisabledSidechain)) := by
  induction ps with
  | nil => intro acc y h; simpa using h
  | cons w ps ih =>
      intro acc y h
      cases hw : w.plugin with
      | none =>
          rw [List.foldl_cons]
          simp only [updateStep, hw]
          rw [ih acc y h, List.any_cons, hw]
          simp
      | some p =>
          rw [List.foldl_cons]
          have hstep : (updateStep hs acc w).sidechainDisabled =
              (hs && (y || w.needsDisabledSidechain)) := by
            simp only [updateStep, hw, h]
            cases hs <;> cases y <;> cases w.needsDisabledSidechain <;> rfl
          rw [ih _ _ hstep, List.any_cons, hw]
          simp [Bool.or_assoc]

theorem findTailRev_eq_find (ps : List AGProcessor) :
    findTailRev ps =
      (match ps.find? (fun w => !w.suspended) with
       | some w => w.getTailLengthSeconds
       | none => 0) := by
  induction ps with
  | nil => rfl
  | cons w ps ih =>
      by_cases hsus : w.suspended = true
      · simp [findTailRev, hsus, List.find?_cons, ih]
      · have : w.suspended = false := by simpa using hsus
        simp [findTailRev, this, List.find?_cons]

/-- Claim C5: after `updateNoLock`, the chain's latency is the sum of the
loaded plugins' latencies, double-precision support is the conjunction of their
capabilities, the extra channel count is the maximum over the loaded wrappers'
extra input/output channels, `sidechainDisabled` is `hasSidechain` and some
loaded wrapper needing a disabled sidechain, and the tail is the tail of the
last non-suspended wrapper (else 0); an empty chain yields latency 0, tail 0
and double support `true`. -/
theorem C5_updateNoLock_aggregates (ch : ProcessorChain) :
    (updateNoLock ch).latencySamples =
      (ch.processors.map fun w =>
        match w.plugin with
        | some p => p.latencySamples
        | none => 0).sum ∧
    (updateNoLock ch).supportsDoublePrecission =
      (ch.processors.all fun w =>
        match w.plugin with
        | some p => p.supportsDoublePrecisionProcessing
        | none => true) ∧
    (updateNoLock ch).extraChannels =
      (ch.processors.filterMap fun w =>
        w.plugin.map fun _ => max w.extraInChannels w.extraOutChannels).foldl max 0 ∧
    (updateNoLock ch).sidechainDisabled =
      (ch.hasSidechain && ch.processors.any fun w =>
        w.plugin.isSome && w.needsDisabledSidechain) ∧
    (updateNoLock ch).tailSecs =
      (match ch.processors.reverse.find? (fun w => !w.suspended) with
       | some w => w.getTailLengthSeconds
       | none => 0) ∧
    (updateNoLock { ch with processors := [] }).latencySamples = 0 ∧
    (updateNoLock { ch with processors := [] }).tailSecs = 0 ∧
    (updateNoLock { ch with processors := [] }).supportsDoublePrecission = true := by
  refine ⟨?_, ?_, ?_, ?_, ?_, ?_, ?_, ?_⟩
  · simpa [updateNoLock] using foldl_updateStep_latency ch.hasSidechain ch.processors ⟨0, true, 0, false⟩
  · simpa [updateNoLock] using foldl_updateStep_double ch.hasSidechain ch.processors ⟨0, true, 0, false⟩
  · simpa [updateNoLock] using foldl_updateStep_extra ch.hasSidechain ch.processors ⟨0, true, 0, false⟩
  · simpa [updateNoLock] using
      foldl_updateStep_sidechain ch.hasSidechain ch.processors ⟨0, true, 0, false⟩ false (by simp)
  · simpa [updateNoLock] using findTailRev_eq_find ch.processors.reverse
  · simp [updateNoLock]
  · simp [updateNoLock, findTailRev]
  · simp [updateNoLock]

/-- Claim C1 (counterexample): on a wrapper whose plugin handle is already set,
`load` leaves the state and the counter alone but returns `false`, not
success as the claim states. -/
theorem C1_counterexample :
    AGProcessor.load envC1 wLoaded 5 = (wLoaded, 5, false) ∧
      (AGProcessor.load envC1 wLoaded 5).2.2 ≠ true := by
  constructor
  · rfl
  · decide

/-- Claim C1 (amended): a second `load` on a wrapper whose plugin handle is
already set is a no-op on the wrapper and on the global loaded-plugin counter,
and returns `false` (the C++ local `loaded` is never set in that path). -/
theorem C1_load_noop_amended (env : LoadEnv) (w : AGProcessor) (count : Nat)
    (p : Plugin) (h : w.plugin = some p) :
    AGProcessor.load env w count = (w, count, false) := by
  simp [AGProcessor.load, h]

/-- Claim C1 (witness): the amended statement at a concrete loaded wrapper. -/
theorem C1_witness :
    wLoaded.plugin = some plugSimple ∧
      AGProcessor.load envC1 wLoaded 5 = (wLoaded, 5, false) :=
  ⟨rfl, C1_load_noop_amended envC1 wLoaded 5 plugSimple rfl⟩

/-- Claim C2 (code evaluation): `updateChannels(4, 2, 3)` installs a sidechain
input bus of 4 discrete channels (`channelsIn`), not the 3 (`channelsSC`) the
claim requires — the `channelsSC > 0` branch passes `channelsIn` to
`discreteChannels`. -/
theorem C2_sidechain_bus_eval :
    (updateChannelsLayout 4 2 3).inputBuses.getD 1 AudioChannelSet.mono =
        AudioChannelSet.discreteChannels 4 ∧
      AudioChannelSet.discreteChannels (4 : Int) ≠ AudioChannelSet.discreteChannels 3 := by
  constructor
  · rfl
  · decide

/-! Helper lemmas about `List.getD` under `set` and append. -/

theorem getD_set {α : Type} (l : List α) (i k : Nat) (a d : α) (hk : k < l.length) :
    (l.set i a).getD k d = if i = k then a else l.getD k d := by
  rcases eq_or_ne i k with h | h
  · subst h
    rw [if_pos rfl, List.getD_eq_getElem _ _ (by simpa using hk), List.getElem_set_self]
  · rw [if_neg h, List.getD_eq_getElem _ _ (by simpa using hk), List.getElem_set_ne h,
      ← List.getD_eq_getElem _ _ hk]

theorem getD_append_left {α : Type} (l₁ l₂ : List α) (k : Nat) (d : α)
    (hk : k < l₁.length) : (l₁ ++ l₂).getD k d = l₁.getD k d := by
  rw [List.getD_eq_getElem _ _ (by simp; omega), List.getElem_append_left hk,
    ← List.getD_eq_getElem _ _ hk]

theorem getD_append_right {α : Type} (l₁ l₂ : List α) (k : Nat) (d : α)
    (h1 : l₁.length ≤ k) (h2 : k - l₁.length < l₂.length) :
    (l₁ ++ l₂).getD k d = l₂.getD (k - l₁.length) d := by
  rw [List.getD_eq_getElem _ _ (by simp; omega), List.getElem_append_right h1,
    ← List.getD_eq_getElem _ _ h2]

/-- Collapsing two successive `setChainIndex` assignments. -/
theorem setChainIndex_setChainIndex (w : AGProcessor) (i j : Int) :
    setChainIndex (setChainIndex w i) j = setChainIndex w j := rfl

/-- Writing a wrapper's own chain index back is the identity. -/
theorem setChainIndex_self (w : AGProcessor) (i : Int) (h : w.chainIndex = i) :
    setChainIndex w i = w := by
  cases w
  simp only [setChainIndex] at *
  simp [← h]

/-! Characterization of `exchangeProcessors` in the in-range case. -/

theorem exchange_length (ch : ProcessorChain) (idxA idxB : Int) :
    (exchangeProcessors ch idxA idxB).processors.length = ch.processors.length := by
  unfold exchangeProcessors
  split <;> simp

theorem exchange_getD (ch : ProcessorChain) (idxA idxB : Int)
    (hA : 0 ≤ idxA) (hA2 : idxA.toNat < ch.processors.length)
    (hB : 0 ≤ idxB) (hB2 : idxB.toNat < ch.processors.length)
    (k : Nat) (hk : k < ch.processors.length) :
    (exchangeProcessors ch idxA idxB).processors.getD k default =
      if k = idxB.toNat then setChainIndex (ch.processors.getD idxA.toNat default) idxB
      else if k = idxA.toNat then setChainIndex (ch.processors.getD idxB.toNat default) idxA
      else ch.processors.getD k default := by
  have hguard : 0 ≤ idxA ∧ idxA.toNat < ch.processors.length ∧
      0 ≤ idxB ∧ idxB.toNat < ch.processors.length := ⟨hA, hA2, hB, hB2⟩
  simp only [exchangeProcessors, if_pos hguard]
  set ps := ch.processors with hps
  set A := idxA.toNat with hA3
  set B := idxB.toNat with hB3
  by_cases hkB : k = B <;> by_cases hkA : k = A <;> by_cases hAB : A = B <;>
    simp_all [getD_set, List.getElem_set, List.length_set, setChainIndex] <;>
    first
      | (intro h; omega)
      | (rw [if_neg (fun h => hkB h.symm), if_neg (fun h => hkA h.symm)])

theorem exchange_eta (ch : ProcessorChain) (i j : Int) :
    exchangeProcessors ch i j =
      { ch with processors := (exchangeProcessors ch i j).processors } := by
  unfold exchangeProcessors
  split <;> rfl

theorem exchange_out_of_range (ch : ProcessorChain) (i j : Int)
    (h : ¬(0 ≤ i ∧ i.toNat < ch.processors.length ∧
        0 ≤ j ∧ j.toNat < ch.processors.length)) :
    exchangeProcessors ch i j = ch := by
  unfold exchangeProcessors
  rw [if_neg h]

/-- Claim C3 (counterexample): on a two-wrapper chain whose chain indices match
their positions, `delProcessor 0` leaves the remaining wrapper with
`chainIndex = 1` at position 0 — the source erases without reassigning. -/
theorem C3_counterexample :
    IdxMatch chC3.processors ∧ ¬ IdxMatch ((delProcessor chC3 0).processors) := by
  constructor
  · decide
  · decide

/-- Claim C3 (amended): `addProcessor` and `exchangeProcessors` preserve the
chainIndex-matches-position invariant, but `delProcessor` does not reassign:
after deleting at `idx`, a remaining wrapper at position `k` has
`chainIndex = k` when `k < idx` and `chainIndex = k + 1` otherwise. -/
theorem C3_chainIndex_amended (ch : ProcessorChain) (p : AGProcessor)
    (idx idxA idxB : Int) (h : IdxMatch ch.processors) :
    IdxMatch (addProcessor ch p).processors ∧
    IdxMatch (exchangeProcessors ch idxA idxB).processors ∧
    (0 ≤ idx → ∀ k, k < ((delProcessor ch idx).processors).length →
      ((delProcessor ch idx).processors.getD k default).chainIndex =
        if (k : Int) < idx then (k : Int) else (k : Int) + 1) := by
  refine ⟨?_, ?_, ?_⟩
  · intro k hk
    have haddp : (addProcessor ch p).processors =
        ch.processors ++ [setChainIndex p ch.processors.length] := rfl
    rw [haddp] at hk ⊢
    simp only [List.length_append, List.length_cons, List.length_nil] at hk
    rcases lt_or_ge k ch.processors.length with hlt | hge
    · rw [getD_append_left _ _ _ _ hlt]; exact h k hlt
    · have hke : k = ch.processors.length := by omega
      subst hke
      rw [getD_append_right _ _ _ _ (le_refl _) (by simp)]
      simp [setChainIndex]
  · by_cases hg : 0 ≤ idxA ∧ idxA.toNat < ch.processors.length ∧
        0 ≤ idxB ∧ idxB.toNat < ch.processors.length
    · intro k hk
      rw [exchange_length] at hk
      obtain ⟨h1, h2, h3, h4⟩ := hg
      rw [exchange_getD ch idxA idxB h1 h2 h3 h4 k hk]
      split_ifs with e1 e2
      · subst e1; simp only [setChainIndex]; omega
      · subst e2; simp only [setChainIndex]; omega
      · exact h k hk
    · rw [exchange_out_of_range ch idxA idxB hg]; exact h
  · intro hidx k hk
    have hdel : (delProcessor ch idx).processors = ch.processors.eraseIdx idx.toNat := by
      simp [delProcessor, updateNoLock, hidx]
    rw [hdel] at hk ⊢
    have hlen := List.length_eraseIdx ch.processors idx.toNat
    have hklen : k < ch.processors.length := by
      by_cases hc : idx.toNat < ch.processors.length <;> simp [hc] at hlen <;> omega
    rw [List.getD_eq_getElem _ _ hk, List.getElem_eraseIdx]
    split
    · rename_i hsm
      rw [← List.getD_eq_getElem ch.processors default hklen, h k hklen,
        if_pos (by omega)]
    · rename_i hsm
      have h5 : k + 1 < ch.processors.length := by
        by_cases hc : idx.toNat < ch.processors.length <;> simp [hc] at hlen <;> omega
      rw [← List.getD_eq_getElem ch.processors default h5, h (k + 1) h5,
        if_neg (by omega)]
      push_cast
      ring

/-- Claim C3 (witness): the invariant-preserving parts of the amended claim at
a concrete two-wrapper chain. -/
theorem C3_witness :
    IdxMatch (addProcessor chC3 default).processors ∧
      IdxMatch (exchangeProcessors chC3 0 1).processors := by
  have h := C3_chainIndex_amended chC3 default 0 0 1 (by decide)
  exact ⟨h.1, h.2.1⟩

/-- Claim C8 (counterexample): on a chain whose first wrapper carries
`chainIndex = 5` (not equal to its position), exchanging twice forces the
wrapper's `chainIndex` to 0 instead of restoring 5, so the double exchange is
not the identity. -/
theorem C8_counterexample :
    ((exchangeProcessors (exchangeProcessors chC8 0 1) 0 1).processors.getD 0
        default).chainIndex = 0 ∧
    (chC8.processors.getD 0 default).chainIndex = 5 ∧
    exchangeProcessors (exchangeProcessors chC8 0 1) 0 1 ≠ chC8 := by
  refine ⟨by decide, by decide, by decide⟩

/-- Claim C8 (amended): when the two in-range positions' wrappers carry chain
indices equal to `idxA` and `idxB`, exchanging twice restores the chain
exactly; any call with an out-of-range index leaves the chain unchanged; and a
call with equal indices is a no-op. -/
theorem C8_exchange_amended (ch : ProcessorChain) (idxA idxB : Int)
    (hA : 0 ≤ idxA) (hA2 : idxA.toNat < ch.processors.length)
    (hB : 0 ≤ idxB) (hB2 : idxB.toNat < ch.processors.length)
    (hia : (ch.processors.getD idxA.toNat default).chainIndex = idxA)
    (hib : (ch.processors.getD idxB.toNat default).chainIndex = idxB) :
    exchangeProcessors (exchangeProcessors ch idxA idxB) idxA idxB = ch ∧
    (∀ i j : Int, ¬(0 ≤ i ∧ i.toNat < ch.processors.length ∧
        0 ≤ j ∧ j.toNat < ch.processors.length) →
      exchangeProcessors ch i j = ch) ∧
    (idxA = idxB → exchangeProcessors ch idxA idxB = ch) := by
  have hlen1 := exchange_length ch idxA idxB
  refine ⟨?_, ?_, ?_⟩
  · have hproc : (exchangeProcessors (exchangeProcessors ch idxA idxB) idxA
        idxB).processors = ch.processors := by
      apply List.ext_getElem
      · rw [exchange_length, exchange_length]
      · intro n h1 h2
        have hn : n < ch.processors.length := h2
        rw [← List.getD_eq_getElem _ default h1, ← List.getD_eq_getElem _ default h2,
          exchange_getD (exchangeProcessors ch idxA idxB) idxA idxB hA
            (by rw [hlen1]; exact hA2) hB (by rw [hlen1]; exact hB2) n
            (by rw [hlen1]; exact hn)]
        by_cases e1 : n = idxB.toNat
        · subst e1
          rw [if_pos rfl, exchange_getD ch idxA idxB hA hA2 hB hB2 idxA.toNat hA2]
          by_cases eAB : idxA.toNat = idxB.toNat
          · rw [if_pos eAB, setChainIndex_setChainIndex, eAB]
            exact setChainIndex_self _ _ hib
          · rw [if_neg eAB, if_pos rfl, setChainIndex_setChainIndex]
            exact setChainIndex_self _ _ hib
        · by_cases e2 : n = idxA.toNat
          · subst e2
            rw [if_neg e1, if_pos rfl,
              exchange_getD ch idxA idxB hA hA2 hB hB2 idxB.toNat hB2,
              if_pos rfl, setChainIndex_setChainIndex]
            exact setChainIndex_self _ _ hia
          · rw [if_neg e1, if_neg e2,
              exchange_getD ch idxA idxB hA hA2 hB hB2 n hn, if_neg e1, if_neg e2]
    have h1 := exchange_eta (exchangeProcessors ch idxA idxB) idxA idxB
    rw [hproc] at h1
    rw [h1, exchange_eta ch idxA idxB]
  · intro i j hg
    exact exchange_out_of_range ch i j hg
  · intro hABeq
    subst hABeq
    have hp : (exchangeProcessors ch idxA idxA).processors = ch.processors := by
      apply List.ext_getElem
      · rw [exchange_length]
      · intro n h1 h2
        rw [← List.getD_eq_getElem _ default h1, ← List.getD_eq_getElem _ default h2,
          exchange_getD ch idxA idxA hA hA2 hA hA2 n h2]
        by_cases e1 : n = idxA.toNat
        · subst e1
          rw [if_pos rfl]
          exact setChainIndex_self _ _ hia
        · rw [if_neg e1, if_neg e1]
    have h1 := exchange_eta ch idxA idxA
    rw [hp] at h1
    rw [h1]

/-- Claim C8 (witness): the amended statement at a concrete chain whose chain
indices match their positions, plus a concrete out-of-range no-op. -/
theorem C8_witness :
    exchangeProcessors (exchangeProcessors chC8w 0 1) 0 1 = chC8w ∧
      exchangeProcessors chC8w (-1) 0 = chC8w := by
  have h := C8_exchange_amended chC8w 0 1 (by decide) (by decide) (by decide)
    (by decide) (by decide) (by decide)
  exact ⟨h.1, h.2.1 (-1) 0 (by decide)⟩

/-! Helper lemmas for the bypass path. -/

theorem getD_map_range {α : Type} (f : Nat → α) (n i : Nat) (d : α) (h : i < n) :
    ((List.range n).map f).getD i d = f i := by
  rw [List.getD_eq_getElem _ _ (by simpa using h), List.getElem_map, List.getElem_range]

theorem length_clearChans (lo hi : Nat) (buffer : List (List ℚ)) :
    (clearChans lo hi buffer).length = buffer.length := by
  simp [clearChans]

theorem getD_clearChans (lo hi : Nat) (buffer : List (List ℚ)) (i : Nat)
    (h : i < buffer.length) :
    (clearChans lo hi buffer).getD i [] =
      if lo ≤ i ∧ i < hi then List.replicate (buffer.getD i []).length 0
      else buffer.getD i [] := by
  unfold clearChans
  exact getD_map_range _ _ _ _ h

theorem bypassChannel_eq (xs : List ℚ) : ∀ fifo, bypassChannel fifo xs =
    ((fifo ++ xs).drop xs.length, (fifo ++ xs).take xs.length) := by
  induction xs with
  | nil => intro fifo; simp [bypassChannel]
  | cons x xs ih =>
      intro fifo
      simp only [bypassChannel, ih]
      cases fifo with
      | nil => simp
      | cons f fs =>
          simp [List.drop_succ_cons, List.take_succ_cons, List.append_assoc]

theorem take_append_replicate_getD (latency : Nat) (chan : List ℚ) (s : Nat)
    (hs : s < chan.length) :
    ((List.replicate latency (0 : ℚ) ++ chan).take chan.length).getD s 0 =
      if s < latency then 0 else chan.getD (s - latency) 0 := by
  have hlen : s < ((List.replicate latency (0 : ℚ) ++ chan).take chan.length).length := by
    simp only [List.length_take, List.length_append, List.length_replicate]
    omega
  rw [List.getD_eq_getElem _ _ hlen, List.getElem_take]
  by_cases hsl : s < latency
  · rw [if_pos hsl, List.getElem_append_left (by simpa using hsl)]
    simp
  · rw [if_neg hsl, List.getElem_append_right (by simpa using Nat.le_of_not_lt hsl)]
    simp only [List.length_replicate]
    rw [← List.getD_eq_getElem _ _ (by omega)]

/-- Claim C6: on a wrapper whose per-channel bypass FIFOs all hold exactly
`latency` zeros (and cover every output channel), `processBlockBypassed`
delays each input-carrying output channel by exactly `latency` samples:
sample `s` of the output is `0` for `s < latency` and input sample
`s - latency` otherwise. -/
theorem C6_bypass_latency (totalIn totalOut latency : Nat)
    (fifos buffer : List (List ℚ)) (c s : Nat)
    (hf : ∀ f ∈ fifos, f = List.replicate latency 0)
    (hflen : totalOut ≤ fifos.length)
    (hbuf : totalOut ≤ buffer.length)
    (hio : totalIn ≤ totalOut)
    (hc : c < totalIn)
    (hs : s < (buffer.getD c []).length) :
    ((processBlockBypassed totalIn totalOut fifos buffer).2.getD c []).getD s 0 =
      if s < latency then 0 else (buffer.getD c []).getD (s - latency) 0 := by
  have htIn : min totalIn buffer.length = totalIn := min_eq_left (hio.trans hbuf)
  have htOut : min totalOut buffer.length = totalOut := min_eq_left hbuf
  have hcb : c < buffer.length := lt_of_lt_of_le hc (hio.trans hbuf)
  have hnot : ¬(fifos.length < totalOut) := by omega
  simp only [processBlockBypassed, htIn, htOut, if_neg hnot]
  rw [getD_map_range _ _ _ _ (by rw [length_clearChans]; exact hcb),
    if_pos (lt_of_lt_of_le hc hio), getD_clearChans _ _ _ _ hcb,
    if_neg (by omega)]
  have hcf : c < fifos.length := lt_of_lt_of_le (lt_of_lt_of_le hc hio) hflen
  have hfc : fifos.getD c [] = List.replicate latency 0 := by
    rw [List.getD_eq_getElem _ _ hcf]
    exact hf _ (List.getElem_mem hcf)
  rw [hfc, bypassChannel_eq]
  exact take_append_replicate_getD latency _ s hs

/-- Claim C6 (witness): with latency 4 and an impulse input, the bypass output
is the impulse delayed by 4 samples; sample 4 of the output equals 1. -/
theorem C6_witness :
    ((processBlockBypassed 1 1 [List.replicate 4 0]
        [[1, 0, 0, 0, 0, 0, 0, 0]]).2.getD 0 []).getD 4 0 = 1 := by
  rw [C6_bypass_latency 1 1 4 [List.replicate 4 0] [[1, 0, 0, 0, 0, 0, 0, 0]] 0 4
    (by decide) (by decide) (by decide) (by decide) (by decide) (by decide)]
  decide

/-- Claim C10: with empty per-channel FIFOs covering every output channel
(`lastKnownLatency = 0`), `processBlockBypassed` is the identity on the input
channels, clears channels `[totalIn, totalOut)`, leaves later channels alone,
and leaves every FIFO empty. -/
theorem C10_bypass_empty_fifos (totalIn totalOut : Nat)
    (fifos buffer : List (List ℚ))
    (hf : ∀ f ∈ fifos, f = [])
    (hflen : totalOut ≤ fifos.length)
    (hbuf : totalOut ≤ buffer.length)
    (hio : totalIn ≤ totalOut) :
    (processBlockBypassed totalIn totalOut fifos buffer).2.length = buffer.length ∧
    (∀ i, i < totalIn →
      (processBlockBypassed totalIn totalOut fifos buffer).2.getD i [] =
        buffer.getD i []) ∧
    (∀ i, totalIn ≤ i → i < totalOut →
      (processBlockBypassed totalIn totalOut fifos buffer).2.getD i [] =
        List.replicate (buffer.getD i []).length 0) ∧
    (∀ i, totalOut ≤ i → i < buffer.length →
      (processBlockBypassed totalIn totalOut fifos buffer).2.getD i [] =
        buffer.getD i []) ∧
    (∀ g ∈ (processBlockBypassed totalIn totalOut fifos buffer).1, g = []) := by
  have htIn : min totalIn buffer.length = totalIn := min_eq_left (hio.trans hbuf)
  have htOut : min totalOut buffer.length = totalOut := min_eq_left hbuf
  have hnot : ¬(fifos.length < totalOut) := by omega
  have hfgetD : ∀ i, i < fifos.length → fifos.getD i [] = [] := by
    intro i hi
    rw [List.getD_eq_getElem _ _ hi]
    exact hf _ (List.getElem_mem hi)
  simp only [processBlockBypassed, htIn, htOut, if_neg hnot]
  refine ⟨by simp [length_clearChans], ?_, ?_, ?_, ?_⟩
  · intro i hi
    have hib : i < buffer.length := lt_of_lt_of_le hi (hio.trans hbuf)
    rw [getD_map_range _ _ _ _ (by rw [length_clearChans]; exact hib),
      if_pos (lt_of_lt_of_le hi hio), getD_clearChans _ _ _ _ hib,
      if_neg (by omega), hfgetD i (lt_of_lt_of_le (lt_of_lt_of_le hi hio) hflen),
      bypassChannel_eq]
    simp
  · intro i hi1 hi2
    have hib : i < buffer.length := lt_of_lt_of_le hi2 hbuf
    rw [getD_map_range _ _ _ _ (by rw [length_clearChans]; exact hib),
      if_pos hi2, getD_clearChans _ _ _ _ hib, if_pos ⟨hi1, hi2⟩,
      hfgetD i (lt_of_lt_of_le hi2 hflen), bypassChannel_eq]
    simp
  · intro i hi1 hib
    rw [getD_map_range _ _ _ _ (by rw [length_clearChans]; exact hib),
      if_neg (by omega), getD_clearChans _ _ _ _ hib, if_neg (by omega)]
  · intro g hg
    rw [List.mem_map] at hg
    obtain ⟨c, hcr, rfl⟩ := hg
    rw [List.mem_range] at hcr
    by_cases hco : c < totalOut
    · rw [if_pos hco, hfgetD c hcr, bypassChannel_eq]
      simp
    · rw [if_neg hco]
      exact hfgetD c hcr

/-- Claim C10 (witness): a 3-channel buffer with one input channel, two output
channels and empty FIFOs — channel 0 passes through, channel 1 is cleared,
channel 2 is untouched. -/
theorem C10_witness :
    (processBlockBypassed 1 2 [[], []] [[1, 2], [3, 4], [5, 6]]).2.getD 0 [] = [1, 2] ∧
    (processBlockBypassed 1 2 [[], []] [[1, 2], [3, 4], [5, 6]]).2.getD 1 [] = [0, 0] ∧
    (processBlockBypassed 1 2 [[], []] [[1, 2], [3, 4], [5, 6]]).2.getD 2 [] = [5, 6] := by
  have h := C10_bypass_empty_fifos 1 2 [[], []] [[1, 2], [3, 4], [5, 6]]
    (by decide) (by decide) (by decide) (by decide)
  refine ⟨?_, ?_, ?_⟩
  · rw [h.2.1 0 (by decide)]; decide
  · rw [h.2.2.1 1 (by decide) (by decide)]; decide
  · rw [h.2.2.2.1 2 (by decide) (by decide)]; decide

/-! Helper lemmas for `updateLatencyBuffers`. -/

theorem shrinkFifo_eq (latency : Nat) (f : List ℚ) :
    shrinkFifo latency f = f.drop (f.length - latency) := by
  induction f with
  | nil => rw [shrinkFifo]; simp
  | cons x fs ih =>
      rw [shrinkFifo]
      by_cases h : latency < (x :: fs).length
      · rw [if_pos h, List.tail_cons, ih]
        have h2 : (x :: fs).length - latency = (fs.length - latency) + 1 := by
          simp only [List.length_cons] at h ⊢
          omega
        rw [h2, List.drop_succ_cons]
      · rw [if_neg h]
        have h2 : (x :: fs).length - latency = 0 := by
          simp only [List.length_cons] at h ⊢
          omega
        rw [h2, List.drop_zero]

theorem growFifo_eq_fuel (latency : Nat) :
    ∀ k f, latency - f.length = k → growFifo latency f = f ++ List.replicate k 0 := by
  intro k
  induction k with
  | zero =>
      intro f h
      rw [growFifo, if_neg (by omega)]
      simp
  | succ k ih =>
      intro f h
      rw [growFifo, if_pos (by omega), ih (f ++ [0]) (by simp; omega),
        List.append_assoc]
      simp [List.replicate_succ]

theorem growFifo_eq (latency : Nat) (f : List ℚ) :
    growFifo latency f = f ++ List.replicate (latency - f.length) 0 :=
  growFifo_eq_fuel latency (latency - f.length) f rfl

theorem grow_shrink_eq (latency : Nat) (f : List ℚ) :
    growFifo latency (shrinkFifo latency f) = resizeSpec latency f := by
  have h : latency - (f.length - (f.length - latency)) = latency - f.length := by omega
  simp only [resizeSpec]
  rw [shrinkFifo_eq, growFifo_eq, List.length_drop, h]

theorem length_resizeSpec (latency : Nat) (f : List ℚ) :
    (resizeSpec latency f).length = latency := by
  simp only [resizeSpec, List.length_append, List.length_drop, List.length_replicate]
  omega

theorem addMissing_eq_fuel (channels latency : Nat) :
    ∀ k fifos, channels - fifos.length = k →
      addMissing channels latency fifos =
        fifos ++ List.replicate (channels - fifos.length) (List.replicate latency 0) := by
  intro k
  induction k with
  | zero =>
      intro fs h
      rw [addMissing, if_neg (by omega), h]
      simp
  | succ k ih =>
      intro fs h
      rw [addMissing, if_pos (by omega), ih (fs ++ [List.replicate latency 0]) (by simp; omega),
        List.append_assoc]
      congr 1
      have h2 : channels - fs.length = (channels - (fs ++ [List.replicate latency 0]).length) + 1 := by
        simp only [List.length_append, List.length_cons, List.length_nil]
        omega
      rw [h2, List.replicate_succ]
      simp

theorem addMissing_eq (channels latency : Nat) (fifos : List (List ℚ)) :
    addMissing channels latency fifos =
      fifos ++ List.replicate (channels - fifos.length) (List.replicate latency 0) :=
  addMissing_eq_fuel channels latency (channels - fifos.length) fifos rfl

theorem addMissing_getD (channels latency : Nat) (fs : List (List ℚ)) (c : Nat)
    (hc : c < channels) :
    (addMissing channels latency fs).getD c [] =
      if c < fs.length then fs.getD c [] else List.replicate latency 0 := by
  rw [addMissing_eq]
  by_cases h : c < fs.length
  · rw [if_pos h, getD_append_left _ _ _ _ h]
  · rw [if_neg h, getD_append_right _ _ _ _ (by omega)
      (by simp only [List.length_replicate]; omega)]
    rw [List.getD_eq_getElem _ _ (by simp only [List.length_replicate]; omega)]
    simp

theorem length_addMissing (channels latency : Nat) (fs : List (List ℚ)) :
    (addMissing channels latency fs).length = fs.length + (channels - fs.length) := by
  rw [addMissing_eq]
  simp

/-- Claim C7: after `updateLatencyBuffers`, both per-precision FIFO collections
cover every plugin output channel, and every per-channel FIFO up to the channel
count has length exactly `lastKnownLatency`, equal to the previous FIFO
truncated from the head or zero-padded at the tail (a freshly created channel
counts as a FIFO of `lastKnownLatency` zeros). -/
theorem C7_updateLatencyBuffers (channels latency : Nat)
    (fifosF fifosD : List (List ℚ)) (c : Nat) (hc : c < channels) :
    channels ≤ (updateLatencyBuffers channels latency fifosF fifosD).1.length ∧
    channels ≤ (updateLatencyBuffers channels latency fifosF fifosD).2.length ∧
    (updateLatencyBuffers channels latency fifosF fifosD).1.getD c [] =
      resizeSpec latency
        (if c < fifosF.length then fifosF.getD c [] else List.replicate latency 0) ∧
    ((updateLatencyBuffers channels latency fifosF fifosD).1.getD c []).length =
      latency ∧
    (updateLatencyBuffers channels latency fifosF fifosD).2.getD c [] =
      resizeSpec latency
        (if c < fifosD.length then fifosD.getD c [] else List.replicate latency 0) ∧
    ((updateLatencyBuffers channels latency fifosF fifosD).2.getD c []).length =
      latency := by
  have hlenF : c < (addMissing channels latency fifosF).length := by
    rw [length_addMissing]; omega
  have hlenD : c < (addMissing channels latency fifosD).length := by
    rw [length_addMissing]; omega
  have hgetF : (updateLatencyBuffers channels latency fifosF fifosD).1.getD c [] =
      resizeSpec latency
        (if c < fifosF.length then fifosF.getD c [] else List.replicate latency 0) := by
    simp only [updateLatencyBuffers]
    rw [getD_map_range _ _ _ _ hlenF, if_pos hc,
      addMissing_getD channels latency fifosF c hc, grow_shrink_eq]
  have hgetD : (updateLatencyBuffers channels latency fifosF fifosD).2.getD c [] =
      resizeSpec latency
        (if c < fifosD.length then fifosD.getD c [] else List.replicate latency 0) := by
    simp only [updateLatencyBuffers]
    rw [getD_map_range _ _ _ _ hlenD, if_pos hc,
      addMissing_getD channels latency fifosD c hc, grow_shrink_eq]
  refine ⟨?_, ?_, hgetF, ?_, hgetD, ?_⟩
  · simp only [updateLatencyBuffers, List.length_map, List.length_range,
      length_addMissing]
    omega
  · simp only [updateLatencyBuffers, List.length_map, List.length_range,
      length_addMissing]
    omega
  · rw [hgetF, length_resizeSpec]
  · rw [hgetD, length_resizeSpec]

/-- Claim C7 (witness): channel 0's FIFO `[1,2,3,4,5]` resized to latency 3 is
`[3,4,5]` (head-truncated); the freshly created channels have length 3. -/
theorem C7_witness :
    (updateLatencyBuffers 2 3 [[1, 2, 3, 4, 5]] []).1.getD 0 [] = [3, 4, 5] ∧
    ((updateLatencyBuffers 2 3 [[1, 2, 3, 4, 5]] []).1.getD 1 []).length = 3 ∧
    ((updateLatencyBuffers 2 3 [[1, 2, 3, 4, 5]] []).2.getD 0 []).length = 3 := by
  have h0 := C7_updateLatencyBuffers 2 3 [[1, 2, 3, 4, 5]] [] 0 (by decide)
  have h1 := C7_updateLatencyBuffers 2 3 [[1, 2, 3, 4, 5]] [] 1 (by decide)
  refine ⟨?_, h1.2.2.2.1, h0.2.2.2.2.2⟩
  rw [h0.2.2.1]
  decide

/-! Helper lemma for the recents serialization. -/

theorem foldl_render_eq (l : List PlugDesc) :
    ∀ acc : List Char, l.foldl (fun acc r => acc ++ r.render ++ ['\n']) acc =
      acc ++ (l.map fun r => r.render ++ ['\n']).flatten := by
  induction l with
  | nil => intro acc; simp
  | cons d l ih =>
      intro acc
      rw [List.foldl_cons, ih]
      simp [List.append_assoc]

/-- Claim C9: after `addToRecentsList` with an id resolving to `plug`, the
host's list holds `plug` exactly once, at position 0, and has length at most
the configured maximum; `getRecentsList` is the newline-terminated
serialization for a known host and empty for an unknown one. -/
theorem C9_recents (plug : PlugDesc) (numRecents : Nat) (recents : Recents)
    (host : String) (hN : 1 ≤ numRecents) :
    ((addToRecentsList (some plug) numRecents recents host host).getD []).head? =
      some plug ∧
    ((addToRecentsList (some plug) numRecents recents host host).getD []).count plug
      = 1 ∧
    ((addToRecentsList (some plug) numRecents recents host host).getD []).length ≤
      numRecents ∧
    (addToRecentsList (some plug) numRecents recents host host).isSome = true ∧
    (∀ h2, recents h2 = none → getRecentsList recents h2 = []) ∧
    (∀ h2 l, recents h2 = some l →
      getRecentsList recents h2 = (l.map fun r => r.render ++ ['\n']).flatten) := by
  simp only [addToRecentsList, if_pos rfl, Option.getD_some]
  set l1 := ((recents host).getD []).filter (fun r => decide ¬(r = plug)) with hl1
  have hnotmem : plug ∉ l1 := by
    intro hm
    have := List.of_mem_filter hm
    simp at this
  refine ⟨?_, ?_, ?_, by simp, ?_, ?_⟩
  · by_cases hrem : (0 : Int) < (plug :: l1).length - numRecents
    · rw [if_pos hrem]
      have hlen : (plug :: l1).length - ((plug :: l1).length - (numRecents : Int)).toNat
          = numRecents := by
        simp only [List.length_cons] at hrem ⊢
        omega
      rw [hlen]
      obtain ⟨m, hm⟩ : ∃ m, numRecents = m + 1 := ⟨numRecents - 1, by omega⟩
      rw [hm, List.take_succ_cons]
      rfl
    · rw [if_neg hrem]
      rfl
  · by_cases hrem : (0 : Int) < (plug :: l1).length - numRecents
    · rw [if_pos hrem]
      have hlen : (plug :: l1).length - ((plug :: l1).length - (numRecents : Int)).toNat
          = numRecents := by
        simp only [List.length_cons] at hrem ⊢
        omega
      rw [hlen]
      obtain ⟨m, hm⟩ : ∃ m, numRecents = m + 1 := ⟨numRecents - 1, by omega⟩
      rw [hm, List.take_succ_cons, List.count_cons_self,
        List.count_eq_zero.mpr (fun hmm => hnotmem (List.take_subset m l1 hmm))]
    · rw [if_neg hrem, List.count_cons_self, List.count_eq_zero.mpr hnotmem]
  · by_cases hrem : (0 : Int) < (plug :: l1).length - numRecents
    · rw [if_pos hrem]
      have hlen : (plug :: l1).length - ((plug :: l1).length - (numRecents : Int)).toNat
          = numRecents := by
        simp only [List.length_cons] at hrem ⊢
        omega
      rw [hlen, List.length_take]
      omega
    · rw [if_neg hrem]
      simp only [List.length_cons] at hrem ⊢
      omega
  · intro h2 hnone
    simp [getRecentsList, hnone]
  · intro h2 l hsome
    simp only [getRecentsList, hsome]
    simpa using foldl_render_eq l []

/-- Claim C9 (witness): adding a resolvable plugin for host `hostA` puts its
description at position 0 with the bound respected; an unknown host serializes
to the empty string. -/
theorem C9_witness :
    ((addToRecentsList (some descP1) 2 recents0 "hostA" "hostA").getD []).head? =
      some descP1 ∧
    ((addToRecentsList (some descP1) 2 recents0 "hostA" "hostA").getD []).length ≤ 2 ∧
    getRecentsList recents0 "hostB" = [] := by
  have h := C9_recents descP1 2 recents0 "hostA" (by decide)
  exact ⟨h.1, h.2.2.1, h.2.2.2.2.1 "hostB" (by decide)⟩

/-! Helper lemmas for the legacy-id parser. -/

theorem firstIdx_append_cons : ∀ a b : List Char, '-' ∉ a →
    firstIdx '-' (a ++ '-' :: b) = some a.length
  | [], b, _ => by simp [firstIdx]
  | x :: a, b, ha => by
      have hx : x ≠ '-' := fun h => ha (by simp [h])
      have ha2 : '-' ∉ a := fun h => ha (by simp [h])
      simp [firstIdx, hx, firstIdx_append_cons a b ha2]

theorem firstIdx_some : ∀ (s : List Char) (p : Nat), firstIdx '-' s = some p →
    s = s.take p ++ '-' :: s.drop (p + 1) ∧ '-' ∉ s.take p
  | [], p, h => by simp [firstIdx] at h
  | x :: rest, p, h => by
      by_cases hx : x = '-'
      · rw [firstIdx, if_pos hx] at h
        have hp : p = 0 := by cases h; rfl
        subst hp
        subst hx
        exact ⟨rfl, by simp⟩
      · rw [firstIdx, if_neg hx] at h
        rw [Option.map_eq_some'] at h
        obtain ⟨q, hq, hp⟩ := h
        subst hp
        obtain ⟨IH1, IH2⟩ := firstIdx_some rest q hq
        constructor
        · rw [List.take_succ_cons, List.drop_succ_cons, List.cons_append]
          exact congrArg _ IH1
        · rw [List.take_succ_cons]
          intro hmem
          rcases List.mem_cons.mp hmem with h | h
          · exact hx h.symm
          · exact IH2 h

theorem lastIdx_none_iff : ∀ s : List Char, lastIdx '-' s = none ↔ '-' ∉ s
  | [] => by simp [lastIdx]
  | x :: rest => by
      rw [lastIdx]
      cases h : lastIdx '-' rest with
      | some q =>
          have hrest : '-' ∈ rest := by
            by_contra hn
            rw [(lastIdx_none_iff rest).mpr hn] at h
            cases h
          simp [hrest]
      | none =>
          have hrest : '-' ∉ rest := (lastIdx_none_iff rest).mp h
          by_cases hx : x = '-'
          · simp [hx]
          · simp only [if_neg hx, List.mem_cons, not_or]
            constructor
            · intro _
              exact ⟨fun hc => hx hc.symm, hrest⟩
            · intro _
              trivial

theorem lastIdx_append_cons : ∀ a b : List Char, '-' ∉ b →
    lastIdx '-' (a ++ '-' :: b) = some a.length
  | [], b, hb => by
      rw [List.nil_append, lastIdx, (lastIdx_none_iff b).mpr hb]
      simp
  | x :: a, b, hb => by
      rw [List.cons_append, lastIdx, lastIdx_append_cons a b hb]
      simp

theorem lastIdx_some : ∀ (s : List Char) (p : Nat), lastIdx '-' s = some p →
    s = s.take p ++ '-' :: s.drop (p + 1) ∧ '-' ∉ s.drop (p + 1)
  | [], p, h => by simp [lastIdx] at h
  | x :: rest, p, h => by
      rw [lastIdx] at h
      cases h2 : lastIdx '-' rest with
      | some q =>
          rw [h2] at h
          have hp : p = q + 1 := by cases h; rfl
          subst hp
          obtain ⟨IH1, IH2⟩ := lastIdx_some rest q h2
          constructor
          · rw [List.take_succ_cons, List.drop_succ_cons, List.cons_append]
            exact congrArg _ IH1
          · rw [List.drop_succ_cons]
            exact IH2
      | none =>
          rw [h2] at h
          have hrest : '-' ∉ rest := (lastIdx_none_iff rest).mp h2
          by_cases hx : x = '-'
          · rw [if_pos hx] at h
            have hp : p = 0 := by cases h; rfl
            subst hp
            subst hx
            exact ⟨rfl, by simpa using hrest⟩
          · rw [if_neg hx] at h
            cases h

theorem take_append_cons (a : List Char) (c : Char) (b : List Char) :
    (a ++ c :: b).take a.length = a :=
  List.take_left a (c :: b)

theorem drop_append_cons (a : List Char) (c : Char) (b : List Char) :
    (a ++ c :: b).drop (a.length + 1) = b := by
  have h : a ++ c :: b = (a ++ [c]) ++ b := by simp
  rw [h]
  have h2 := List.drop_left (a ++ [c]) b
  simp only [List.length_append, List.length_cons, List.length_nil] at h2
  exact h2

theorem convert_complete (format name fileHash pluginId : List Char)
    (hfmt : format = "AudioUnit".toList ∨ format = "VST".toList ∨
      format = "VST3".toList)
    (hfh : '-' ∉ fileHash) (hpid : '-' ∉ pluginId)
    (hhex : ∀ c ∈ fileHash, hexOk (toLowerC c) = true) :
    convertJUCEtoAGPluginID
        (format ++ '-' :: (name ++ '-' :: (fileHash ++ '-' :: pluginId))) =
      format ++ '-' :: (name ++ '-' :: pluginId) := by
  have hfd : '-' ∉ format := by
    rcases hfmt with h | h | h <;> subst h <;> decide
  have hcond : ¬(format ≠ "AudioUnit".toList ∧ format ≠ "VST".toList ∧
      format ≠ "VST3".toList) := by
    rcases hfmt with h | h | h <;> simp [h]
  have hall : (fileHash.map toLowerC).all hexOk = true := by
    rw [List.all_map]
    exact List.all_eq_true.mpr fun c hc => hhex c hc
  have hassoc : name ++ '-' :: (fileHash ++ '-' :: pluginId) =
      (name ++ '-' :: fileHash) ++ '-' :: pluginId := by
    simp
  unfold convertJUCEtoAGPluginID
  rw [firstIdx_append_cons format _ hfd]
  dsimp only
  rw [take_append_cons, if_neg hcond, drop_append_cons, hassoc,
    lastIdx_append_cons _ _ hpid]
  dsimp only
  rw [drop_append_cons, take_append_cons, lastIdx_append_cons _ _ hfh]
  dsimp only
  rw [drop_append_cons, take_append_cons, if_pos hall]

theorem convert_sound (s : List Char) :
    convertJUCEtoAGPluginID s = [] ∨
      ∃ format name fileHash pluginId, LegacyParts s format name fileHash pluginId := by
  unfold convertJUCEtoAGPluginID
  cases hf : firstIdx '-' s with
  | none => exact Or.inl rfl
  | some pos =>
      dsimp only
      by_cases hfmt : s.take pos ≠ "AudioUnit".toList ∧ s.take pos ≠ "VST".toList ∧
          s.take pos ≠ "VST3".toList
      · rw [if_pos hfmt]
        exact Or.inl rfl
      · rw [if_neg hfmt]
        cases h2 : lastIdx '-' (s.drop (pos + 1)) with
        | none => exact Or.inl rfl
        | some pos2 =>
            dsimp only
            cases h3 : lastIdx '-' ((s.drop (pos + 1)).take pos2) with
            | none => exact Or.inl rfl
            | some pos3 =>
                dsimp only
                by_cases hhex :
                    ((((s.drop (pos + 1)).take pos2).drop (pos3 + 1)).map
                      toLowerC).all hexOk = true
                · rw [if_pos hhex]
                  refine Or.inr ⟨s.take pos, ((s.drop (pos + 1)).take pos2).take pos3,
                    ((s.drop (pos + 1)).take pos2).drop (pos3 + 1),
                    (s.drop (pos + 1)).drop (pos2 + 1), ?_, ?_, ?_, ?_, ?_⟩
                  · obtain ⟨e1, _⟩ := firstIdx_some s pos hf
                    obtain ⟨e2, _⟩ := lastIdx_some _ pos2 h2
                    obtain ⟨e3, _⟩ := lastIdx_some _ pos3 h3
                    conv_lhs => rw [e1, e2, e3]
                    simp
                  · simpa only [not_and_or, not_not] using hfmt
                  · exact (lastIdx_some _ pos3 h3).2
                  · exact (lastIdx_some _ pos2 h2).2
                  · rw [List.all_map] at hhex
                    exact fun c hc => List.all_eq_true.mp hhex c hc
                · rw [if_neg hhex]
                  exact Or.inl rfl

/-- Claim C4 (counterexample): the input `VST-Foo-ABCD-00000001` has a
file-hash segment that is not lowercase hex, so the claim demands the empty
string, but the code lowercases the segment before validating and returns
`VST-Foo-00000001`. -/
theorem C4_counterexample :
    convertJUCEtoAGPluginID "VST-Foo-ABCD-00000001".toList =
        "VST-Foo-00000001".toList ∧
    "VST-Foo-00000001".toList ≠ ([] : List Char) ∧
    ¬(∀ c ∈ "ABCD".toList, ('a' ≤ c ∧ c ≤ 'f') ∨ ('0' ≤ c ∧ c ≤ '9')) := by
  refine ⟨by decide, by decide, by decide⟩

/-- Claim C4 (amended): `convertLegacyID` returns `<format>-<name>-<id>`
exactly when the input splits as `<format>-<name>-<fileHash>-<id>` with a
format tag in {AudioUnit, VST, VST3}, dash-free fileHash and id segments, and
a fileHash that is hex after lowercasing (uppercase hex is accepted; the
trailing id segment is not validated); every other input yields the empty
string. -/
theorem C4_convertLegacyID_amended (s : List Char) :
    (∀ format name fileHash pluginId,
        LegacyParts s format name fileHash pluginId →
          convertJUCEtoAGPluginID s = format ++ '-' :: (name ++ '-' :: pluginId)) ∧
    (convertJUCEtoAGPluginID s ≠ [] →
      ∃ format name fileHash pluginId, LegacyParts s format name fileHash pluginId) := by
  constructor
  · rintro format name fileHash pluginId ⟨rfl, hfmt, hfh, hpid, hhex⟩
    exact convert_complete format name fileHash pluginId hfmt hfh hpid hhex
  · intro hne
    rcases convert_sound s with h | h
    · exact absurd h hne
    · exact h

/-- Claim C4 (witness): the amended statement at the spec's scenario input
`VST3-MyComp-deadbeef-12345678` and at the uppercase-hex input, whose
conversion is nonempty and therefore admits a legacy decomposition. -/
theorem C4_witness :
    convertJUCEtoAGPluginID "VST3-MyComp-deadbeef-12345678".toList =
        "VST3-MyComp-12345678".toList ∧
    (∃ format name fileHash pluginId,
      LegacyParts "VST-Foo-ABCD-00000001".toList format name fileHash pluginId) := by
  constructor
  · have h := (C4_convertLegacyID_amended "VST3-MyComp-deadbeef-12345678".toList).1
      "VST3".toList "MyComp".toList "deadbeef".toList "12345678".toList
      ⟨by decide, by decide, by decide, by decide, by decide⟩
    rw [h]
    decide
  · exact (C4_convertLegacyID_amended "VST-Foo-ABCD-00000001".toList).2 (by decide)

end Theorems

end AudioGridder
